import Mathlib

/-!
Shallow embedding of the zkSNARKs-basic-concept pipeline:
prime field (field.h), elliptic-curve group (elliptic_curve.h),
R1CS (r1cs.h), QAP with Lagrange interpolation (qap.h) and the
setup/prove/verify protocol (src/zksnark.h).

Conventions used throughout:
* `FieldElement` values are modelled as `ZMod P` (`P = SMALL_PRIME = 2^31 - 1`).
  The C++ class stores a `uint64_t` value reduced mod `P`; its `+`, `-`, `*`
  never overflow before reduction (subtraction adds `P` first, multiplication
  widens to 128 bits), so they coincide with the ring operations of `ZMod P`.
  The constructor `FieldElement(v)` is the natural-number cast into `ZMod P`.
* Code that can throw (`std::runtime_error`) is modelled in `Except String`.
* `while` loops are modelled by structural recursion on an explicit fuel
  argument; each call site passes fuel strictly larger than the loop variant
  (for the extended Euclidean loop the variant is `newr`, for double-and-add
  it is `scalar`), so the out-of-fuel branch is unreachable.
* Random draws (`randomScalar`, which yields a value in `[1, P-1]`) are
  modelled as explicit `Nat` parameters of `setup` and `prove`.
-/

abbrev P : Nat := 2147483647

abbrev F := ZMod P

instance : Fact (Nat.Prime P) :=
  ⟨by
    rw [show P = mersenne 31 by norm_num [mersenne]]
    exact lucas_lehmer_sufficiency 31 (by norm_num) (by norm_num)⟩

instance : NeZero P := ⟨by decide⟩

deriving instance DecidableEq for Except

namespace FieldElement

/-- The `while (newr != 0)` loop of `FieldElement::inverse` (extended
Euclidean algorithm).  State: Bezout coefficients `t, newt : Int` (the C++
`int64_t` variables, which never overflow since they stay in `[-P, P]`) and
remainders `r, newr : Nat` (nonnegative throughout in the C++ run, since they
start at `SMALL_PRIME, value` and evolve by Euclidean remainder).  `fuel`
bounds the iteration count; callers pass `newr + 1`, which suffices because
`newr` strictly decreases. -/
def egcdFuel : Nat → Int → Int → Nat → Nat → Int × Nat
  | 0, t, _, r, _ => (t, r)
  | fuel + 1, t, newt, r, newr =>
    if newr = 0 then (t, r)
    else egcdFuel fuel newt (t - ((r / newr : Nat) : Int) * newt) newr (r % newr)

/-- `FieldElement::inverse` (field.h).  Throws on zero; after the loop throws
if `r > 1`; otherwise adds `P` to a negative `t` and builds a `FieldElement`
from it (the constructor reduces mod `P`).  The final `t` satisfies
`-P < t < P`, so `Int.toNat` after the conditional add matches the C++
`int64_t → uint64_t` conversion. -/
def inverse (a : F) : Except String F :=
  if a.val = 0 then .error "Cannot invert zero"
  else
    let res := egcdFuel (a.val + 1) 0 1 P a.val
    if 1 < res.2 then .error "Value is not invertible"
    else
      let t := if res.1 < 0 then res.1 + (P : Int) else res.1
      .ok ((t.toNat : F))

/-- `FieldElement::operator/`: multiply by the modular inverse. -/
def div (a b : F) : Except String F := do
  let i ← inverse b
  .ok (a * i)

end FieldElement

/-! ## Elliptic curve (elliptic_curve.h) -/

/-- Curve parameter `a`; `setCurveParams(FieldElement(0), FieldElement(7))`
is the only configuration used (also the static initializer values). -/
def curveA : F := 0

/-- Curve parameter `b`. -/
def curveB : F := 7

/-- `ECPoint`: coordinates plus the `is_infinity` flag.  The default
constructor produces `(0, 0)` with the flag set; the coordinate constructor
clears the flag (the on-curve check only prints a warning). -/
structure ECPoint where
  x : F
  y : F
  isInfinity : Bool
deriving DecidableEq, Repr

/-- `ECPoint()`: the point at infinity. -/
def ECPoint.infty : ECPoint := ⟨0, 0, true⟩

/-- `ECPoint(x, y)`: an affine point (membership check is advisory only). -/
def ECPoint.mkPoint (x y : F) : ECPoint := ⟨x, y, false⟩

/-- The curve equation checked (but not enforced) by the constructor:
`y^2 = x^3 + a*x + b`. -/
def ECPoint.onCurve (p : ECPoint) : Prop :=
  p.y * p.y = p.x * p.x * p.x + curveA * p.x + curveB

instance (p : ECPoint) : Decidable p.onCurve := by
  unfold ECPoint.onCurve; infer_instance

/-- `ECPoint::operator+` (elliptic_curve.h): identity absorption, the
vertical-pair guard, tangent slope for doubling, chord slope otherwise.
The slope divisions go through `FieldElement::operator/` and can throw. -/
def ECPoint.add (p q : ECPoint) : Except String ECPoint :=
  if p.isInfinity then .ok q
  else if q.isInfinity then .ok p
  else if p.x = q.x ∧ p.y ≠ q.y then .ok ECPoint.infty
  else do
    let lambda ←
      if p.x = q.x ∧ p.y = q.y then
        FieldElement.div (p.x * p.x * 3 + curveA) (p.y * 2)
      else
        FieldElement.div (q.y - p.y) (q.x - p.x)
    let xNew := lambda * lambda - p.x - q.x
    let yNew := lambda * (p.x - xNew) - p.y
    .ok (ECPoint.mkPoint xNew yNew)

/-- The `while (scalar > 0)` loop of `ECPoint::operator*` (double-and-add).
Note the C++ loop doubles `base` on every iteration, including the last one,
before shifting `scalar`; that final doubling can throw even though its
result is unused. -/
def ECPoint.mulLoop : Nat → ECPoint → ECPoint → Nat → Except String ECPoint
  | 0, result, _, _ => .ok result
  | fuel + 1, result, base, scalar =>
    if scalar = 0 then .ok result
    else do
      let result ← if scalar % 2 = 1 then ECPoint.add result base else .ok result
      let base ← ECPoint.add base base
      ECPoint.mulLoop fuel result base (scalar / 2)

/-- `ECPoint::operator*(uint64_t)`: zero scalar or infinity base give the
point at infinity, otherwise double-and-add. -/
def ECPoint.mulNat (p : ECPoint) (scalar : Nat) : Except String ECPoint :=
  if scalar = 0 ∨ p.isInfinity then .ok ECPoint.infty
  else ECPoint.mulLoop (scalar + 1) ECPoint.infty p scalar

/-! ## Polynomials (qap.h) -/

/-- A dense polynomial: `coefficients[i]` is the coefficient of `x^i`. -/
abbrev Coeffs := List F

/-- The evaluation loop of `Polynomial::evaluate`: running `result` and
`x_power` accumulators over the coefficient list. -/
def evalLoop (x : F) : List F → F → F → F
  | [], result, _ => result
  | c :: rest, result, xPower => evalLoop x rest (result + c * xPower) (xPower * x)

/-- `Polynomial::evaluate`. -/
def polyEval (p : Coeffs) (x : F) : F := evalLoop x p 0 1

/-- `Polynomial::operator+`: a zero vector of the longer length, with both
coefficient lists accumulated into it; entry `i` is the sum of the (zero
padded) entries. -/
def polyAdd (p q : Coeffs) : Coeffs :=
  (List.range (max p.length q.length)).map (fun i => p.getD i 0 + q.getD i 0)

/-- `Polynomial::operator*`: empty inputs give the empty polynomial,
otherwise the full convolution of length `len p + len q - 1`; entry `k`
accumulates `p[i] * q[j]` over all `i + j = k`. -/
def polyMul (p q : Coeffs) : Coeffs :=
  if p.isEmpty ∨ q.isEmpty then []
  else
    (List.range (p.length + q.length - 1)).map
      (fun k =>
        Finset.sum (Finset.range p.length)
          (fun i => if i ≤ k ∧ k - i < q.length then p.getD i 0 * q.getD (k - i) 0 else 0))

/-- `Polynomial::operator*(FieldElement)`: scale every coefficient. -/
def polyScale (p : Coeffs) (c : F) : Coeffs := p.map (fun a => a * c)

namespace LagrangeInterpolation

/-- The loop of `LagrangeInterpolation::basisPolynomial` over the index list
(skipping `i = j`): multiply the accumulator by `(x - x_i)` and then scale by
`1 / (x_j - x_i)`. -/
def basisLoop (j : Nat) (xs : List F) : List Nat → Coeffs → Except String Coeffs
  | [], acc => .ok acc
  | i :: rest, acc =>
    if i = j then basisLoop j xs rest acc
    else do
      let denominator := xs.getD j 0 - xs.getD i 0
      let inv ← FieldElement.div 1 denominator
      basisLoop j xs rest (polyScale (polyMul acc [0 - xs.getD i 0, 1]) inv)

/-- `LagrangeInterpolation::basisPolynomial`. -/
def basisPolynomial (j : Nat) (xs : List F) : Except String Coeffs :=
  basisLoop j xs (List.range xs.length) [1]

/-- Proof-support accessor: the polynomial `basisPolynomial j xs` returns on
success (and `[]` on failure); used to state evaluation lemmas without
existentials. -/
def basisOr (j : Nat) (xs : List F) : Coeffs :=
  match basisPolynomial j xs with
  | .ok p => p
  | .error _ => []

/-- The accumulation loop of `LagrangeInterpolation::interpolate`. -/
def interpLoop (xs ys : List F) : List Nat → Coeffs → Except String Coeffs
  | [], acc => .ok acc
  | j :: rest, acc => do
    let basis ← basisPolynomial j xs
    interpLoop xs ys rest (polyAdd acc (polyScale basis (ys.getD j 0)))

/-- `LagrangeInterpolation::interpolate`: length-mismatch error, then the
sum of scaled basis polynomials starting from the zero polynomial `[0]`. -/
def interpolate (xs ys : List F) : Except String Coeffs :=
  if xs.length ≠ ys.length then .error "x and y value sizes must match"
  else interpLoop xs ys (List.range xs.length) [0]

end LagrangeInterpolation

/-! ## R1CS (r1cs.h) -/

/-- `R1CS`: the three matrices and the two dimensions. -/
structure R1CS where
  A : List (List F)
  B : List (List F)
  C : List (List F)
  num_variables : Nat
  num_constraints : Nat
deriving DecidableEq, Repr

/-- The `R1CS(vars, constraints)` constructor: matrices of zeros. -/
def R1CS.new (vars constraints : Nat) : R1CS :=
  ⟨List.replicate constraints (List.replicate vars 0),
   List.replicate constraints (List.replicate vars 0),
   List.replicate constraints (List.replicate vars 0),
   vars, constraints⟩

/-- `R1CS::setConstraint`: bounds check, then assign the three rows. -/
def R1CS.setConstraint (r : R1CS) (idx : Nat) (a b c : List F) :
    Except String R1CS :=
  if r.num_constraints ≤ idx then .error "Constraint index out of bounds"
  else .ok { r with A := r.A.set idx a, B := r.B.set idx b, C := r.C.set idx c }

/-- One dot-product loop of `R1CS::verify`: `acc = acc + row[j] * witness[j]`
for `j < n`. -/
def dotRow (row w : List F) (n : Nat) : F :=
  (List.range n).foldl (fun acc j => acc + row.getD j 0 * w.getD j 0) 0

/-- The constraint loop of `R1CS::verify`: check `a_val * b_val = c_val` for
each listed row index, returning `false` at the first failure. -/
def R1CS.verifyRows (r : R1CS) (w : List F) : List Nat → Bool
  | [] => true
  | i :: rest =>
    let aVal := dotRow (r.A.getD i []) w r.num_variables
    let bVal := dotRow (r.B.getD i []) w r.num_variables
    let cVal := dotRow (r.C.getD i []) w r.num_variables
    if aVal * bVal ≠ cVal then false else r.verifyRows w rest

/-- `R1CS::verify`: size check, then the constraint loop. -/
def R1CS.verify (r : R1CS) (w : List F) : Bool :=
  if w.length ≠ r.num_variables then false
  else r.verifyRows w (List.range r.num_constraints)

/-- Row `i` of the system is satisfied by `w`:
`(A_i . w) * (B_i . w) = (C_i . w)`, with the dot products computed exactly
as the `R1CS::verify` loop computes them. -/
def R1CS.rowSat (r : R1CS) (w : List F) (i : Nat) : Prop :=
  dotRow (r.A.getD i []) w r.num_variables * dotRow (r.B.getD i []) w r.num_variables
    = dotRow (r.C.getD i []) w r.num_variables

instance (r : R1CS) (w : List F) (i : Nat) : Decidable (r.rowSat w i) := by
  unfold R1CS.rowSat; infer_instance

/-! ## QAP (qap.h) -/

/-- `QAP`: per-variable polynomial triples plus the target polynomial. -/
structure QAP where
  A_polys : List Coeffs
  B_polys : List Coeffs
  C_polys : List Coeffs
  Z : Coeffs
  num_variables : Nat
deriving DecidableEq, Repr

/-- `QAP::fromR1CS`: evaluation points `1..m`, per-variable interpolation of
the three matrix columns (in a/b/c order within each variable, variables in
order, faithfully threading interpolation failures), and the target
polynomial `Z(x) = (x-1)...(x-m)` built by a fold. -/
def QAP.fromR1CS (r : R1CS) : Except String QAP := do
  let xValues := (List.range r.num_constraints).map (fun i => ((i + 1 : Nat) : F))
  let triples ← (List.range r.num_variables).mapM (fun v => do
    let aPoly ← LagrangeInterpolation.interpolate xValues
      ((List.range r.num_constraints).map (fun k => (r.A.getD k []).getD v 0))
    let bPoly ← LagrangeInterpolation.interpolate xValues
      ((List.range r.num_constraints).map (fun k => (r.B.getD k []).getD v 0))
    let cPoly ← LagrangeInterpolation.interpolate xValues
      ((List.range r.num_constraints).map (fun k => (r.C.getD k []).getD v 0))
    pure (aPoly, bPoly, cPoly))
  let z := xValues.foldl (fun acc xv => polyMul acc [0 - xv, 1]) [1]
  pure ⟨triples.map (fun t => t.1), triples.map (fun t => t.2.1),
        triples.map (fun t => t.2.2), z, r.num_variables⟩

/-- `QAP::computePolynomials`: fold `A_x = A_x + A_polys[i] * witness[i]`
(and likewise for B, C) over the variables, starting from `[0]`. -/
def QAP.computePolynomials (qap : QAP) (witness : List F) : Coeffs × Coeffs × Coeffs :=
  (List.range qap.num_variables).foldl
    (fun acc i =>
      (polyAdd acc.1 (polyScale (qap.A_polys.getD i []) (witness.getD i 0)),
       polyAdd acc.2.1 (polyScale (qap.B_polys.getD i []) (witness.getD i 0)),
       polyAdd acc.2.2 (polyScale (qap.C_polys.getD i []) (witness.getD i 0))))
    ([0], [0], [0])

/-! ## Protocol (src/zksnark.h) -/

/-- `ProvingKey` (the `Z_query` member is declared but never filled). -/
structure ProvingKey where
  A_query : List ECPoint
  B_query : List ECPoint
  C_query : List ECPoint
  alpha : ECPoint
  beta : ECPoint
  delta : ECPoint
  Z_query : List ECPoint
deriving DecidableEq, Repr

/-- `VerificationKey`. -/
structure VerificationKey where
  alpha : ECPoint
  beta : ECPoint
  gamma : ECPoint
  delta : ECPoint
  IC : List ECPoint
deriving DecidableEq, Repr

/-- `Proof`: three curve points. -/
structure Proof where
  A : ECPoint
  B : ECPoint
  C : ECPoint
deriving DecidableEq, Repr

/-- The generator `G(FieldElement(2), FieldElement(1234567))` used by
`setup` and `prove`. -/
def generatorG : ECPoint := ECPoint.mkPoint 2 1234567

namespace zkSNARK

/-- `zkSNARK::setup`.  The five toxic-waste scalars (drawn from
`randomScalar()` in the C++ code, each in `[1, P-1]`) are explicit
parameters, in draw order.  The `r1cs` argument is accepted (as in the
source) but never read.  Per variable, the three polynomials are evaluated
at `tau` and encoded as `G * value`; then the alpha/beta/delta (and vk
gamma) points; then `IC[i] = G * (i+1)` for `i = 0..num_public_inputs`. -/
def setup (qap : QAP) (r1cs : R1CS)
    (tau alpha_scalar beta_scalar gamma_scalar delta_scalar : Nat)
    (num_public_inputs : Nat) : Except String (ProvingKey × VerificationKey) := do
  let _ := r1cs
  let G := generatorG
  let queries ← (List.range qap.num_variables).mapM (fun i => do
    let tauFe : F := (tau : F)
    let aVal := polyEval (qap.A_polys.getD i []) tauFe
    let bVal := polyEval (qap.B_polys.getD i []) tauFe
    let cVal := polyEval (qap.C_polys.getD i []) tauFe
    let pa ← ECPoint.mulNat G aVal.val
    let pb ← ECPoint.mulNat G bVal.val
    let pc ← ECPoint.mulNat G cVal.val
    pure (pa, pb, pc))
  let pkAlpha ← ECPoint.mulNat G alpha_scalar
  let pkBeta ← ECPoint.mulNat G beta_scalar
  let pkDelta ← ECPoint.mulNat G delta_scalar
  let vkAlpha ← ECPoint.mulNat G alpha_scalar
  let vkBeta ← ECPoint.mulNat G beta_scalar
  let vkGamma ← ECPoint.mulNat G gamma_scalar
  let vkDelta ← ECPoint.mulNat G delta_scalar
  let ic ← (List.range (num_public_inputs + 1)).mapM (fun i => ECPoint.mulNat G (i + 1))
  pure ({ A_query := queries.map (fun t => t.1),
          B_query := queries.map (fun t => t.2.1),
          C_query := queries.map (fun t => t.2.2),
          alpha := pkAlpha, beta := pkBeta, delta := pkDelta, Z_query := [] },
        { alpha := vkAlpha, beta := vkBeta, gamma := vkGamma, delta := vkDelta,
          IC := ic })

/-- `zkSNARK::prove`.  The blinding scalars `r, s` (drawn from
`randomScalar()`) are explicit parameters.  The combined polynomials are
recomputed (diagnostics only).  Each proof component folds
`query[i] * witness[i]` over the witness indices (skipping indices past the
query length) and then adds the blinded key point; the C component uses the
`uint64_t` product `r * s`, i.e. `(r * s) % 2^64`. -/
def prove (qap : QAP) (pk : ProvingKey) (witness : List F)
    (public_inputs : List F) (r s : Nat) : Except String Proof := do
  let _ := public_inputs
  let _diag := qap.computePolynomials witness
  let sumA ← (List.range witness.length).foldlM (fun acc i =>
    if i < pk.A_query.length then do
      let term ← ECPoint.mulNat (pk.A_query.getD i ECPoint.infty) (witness.getD i 0).val
      ECPoint.add acc term
    else pure acc) ECPoint.infty
  let alphaR ← ECPoint.mulNat pk.alpha r
  let proofA ← ECPoint.add sumA alphaR
  let sumB ← (List.range witness.length).foldlM (fun acc i =>
    if i < pk.B_query.length then do
      let term ← ECPoint.mulNat (pk.B_query.getD i ECPoint.infty) (witness.getD i 0).val
      ECPoint.add acc term
    else pure acc) ECPoint.infty
  let betaS ← ECPoint.mulNat pk.beta s
  let proofB ← ECPoint.add sumB betaS
  let sumC ← (List.range witness.length).foldlM (fun acc i =>
    if i < pk.C_query.length then do
      let term ← ECPoint.mulNat (pk.C_query.getD i ECPoint.infty) (witness.getD i 0).val
      ECPoint.add acc term
    else pure acc) ECPoint.infty
  let deltaRS ← ECPoint.mulNat pk.delta ((r * s) % (2 ^ 64))
  let proofC ← ECPoint.add sumC deltaRS
  pure ⟨proofA, proofB, proofC⟩

/-- `zkSNARK::verify`.  The input-consistency accumulator `vk_x` is folded
from `IC[0]` and `IC[i+1] * public_inputs[i]` (guarding the index), and then
discarded; the returned boolean only checks that no proof component is the
point at infinity. -/
def verify (vk : VerificationKey) (proof : Proof) (public_inputs : List F) :
    Except String Bool := do
  let vkx0 := if vk.IC.isEmpty then ECPoint.infty else vk.IC.getD 0 ECPoint.infty
  let _vkx ← (List.range public_inputs.length).foldlM (fun acc i =>
    if i + 1 < vk.IC.length then do
      let term ← ECPoint.mulNat (vk.IC.getD (i + 1) ECPoint.infty) (public_inputs.getD i 0).val
      ECPoint.add acc term
    else pure acc) vkx0
  pure (!proof.A.isInfinity && !proof.B.isInfinity && !proof.C.isInfinity)

end zkSNARK

/-! ## Concrete instances used in witnesses and counterexamples -/

/-- Scenario A of the examples: variables `[1, x, out]`, single constraint
`x * x = out` (rows over three variables). -/
def sysScenarioA : R1CS := ⟨[[0, 1, 0]], [[0, 1, 0]], [[0, 0, 1]], 3, 1⟩

/-- A one-variable, one-constraint system `s0 * 0 = 0`, satisfied by every
witness; used to drive the protocol on concrete inputs. -/
def sysSquare : R1CS := ⟨[[1]], [[0]], [[0]], 1, 1⟩

/-- An adversarial verification key whose second IC entry is the (off-curve,
accepted-with-a-warning) point `(1, 0)`; multiplying it by an even public
input forces the doubling branch with `y = 0`. -/
def vkBad : VerificationKey :=
  ⟨ECPoint.infty, ECPoint.infty, ECPoint.infty, ECPoint.infty,
   [ECPoint.mkPoint 1 1, ECPoint.mkPoint 1 0]⟩

/-- A proof none of whose components is the point at infinity. -/
def proofNonInf : Proof :=
  ⟨ECPoint.mkPoint 1 1, ECPoint.mkPoint 1 1, ECPoint.mkPoint 1 1⟩

/-- The proving key `setup(fromR1CS(sysSquare), sysSquare, 1,1,1,1,1, 0)`
produces (all scalars 1). -/
def pkSquare : ProvingKey :=
  ⟨[generatorG], [ECPoint.infty], [ECPoint.infty],
   generatorG, generatorG, generatorG, []⟩

/-- The matching verification key. -/
def vkSquare : VerificationKey :=
  ⟨generatorG, generatorG, generatorG, generatorG, [generatorG]⟩

/-- The proof `prove` builds from `pkSquare`, witness `[1]`, `r = s = 1`. -/
def proofSquare : Proof :=
  ⟨ECPoint.mkPoint 1034715528 89683876, generatorG, generatorG⟩

/-- The QAP `fromR1CS` computes for `sysSquare`. -/
def qapSquare : QAP := ⟨[[1]], [[0]], [[0]], [2147483646, 1], 1⟩

/-! ## Correctness of the extended Euclidean inverse -/

/-- `SMALL_PRIME = 2^31 - 1` is prime (Lucas-Lehmer, packaged as the `Fact`
instance above). -/
theorem P_prime : Nat.Prime P := Fact.out

/-- Invariants of the `FieldElement::inverse` loop, by induction on fuel.
The two congruences track the Bezout relation modulo `P`, the signed-sum
equation (with the sign disjunction recording that `t` and `newt` alternate
in sign) pins down the magnitudes, and the final state gives a Bezout
coefficient `tf` for the returned remainder `rf` with `|tf| ≤ P`, plus a
coefficient `ntf` with `ntf * rf = P` witnessing that `rf` divides `P`. -/
theorem egcdFuel_spec (v : Nat) :
    ∀ (fuel : Nat) (t newt : Int) (r newr : Nat),
    newr < fuel →
    newr < r →
    t * v ≡ (r : Int) [ZMOD (P : Int)] →
    newt * v ≡ (newr : Int) [ZMOD (P : Int)] →
    ((t ≤ 0 ∧ 0 ≤ newt ∧ (-t) * newr + newt * r = (P : Int)) ∨
     (0 ≤ t ∧ newt ≤ 0 ∧ t * newr + (-newt) * r = (P : Int))) →
    (-(P : Int) ≤ t ∧ t ≤ (P : Int)) →
    ∃ tf rf ntf,
      FieldElement.egcdFuel fuel t newt r newr = (tf, rf) ∧
      tf * v ≡ (rf : Int) [ZMOD (P : Int)] ∧
      ntf * v ≡ 0 [ZMOD (P : Int)] ∧
      ntf * rf = (P : Int) ∧
      -(P : Int) ≤ tf ∧ tf ≤ (P : Int) := by
  intro fuel
  induction fuel with
  | zero => intro t newt r newr h1 _ _ _ _ _; omega
  | succ fuel ih =>
    intro t newt r newr hfuel hrr hc1 hc2 hsum hbound
    by_cases h0 : newr = 0
    · subst h0
      refine ⟨t, r, ?_⟩
      rcases hsum with ⟨ht, hnt, hs⟩ | ⟨ht, hnt, hs⟩
      · refine ⟨newt, by simp [FieldElement.egcdFuel], hc1, ?_, ?_, hbound.1, hbound.2⟩
        · simpa using hc2
        · push_cast at hs ⊢; linarith
      · refine ⟨-newt, by simp [FieldElement.egcdFuel], hc1, ?_, ?_, hbound.1, hbound.2⟩
        · have hneg := hc2.neg
          simpa using hneg
        · push_cast at hs ⊢; linarith
    · have hnewrpos : 0 < newr := Nat.pos_of_ne_zero h0
      have hstep : FieldElement.egcdFuel (fuel + 1) t newt r newr
          = FieldElement.egcdFuel fuel newt (t - ((r / newr : Nat) : Int) * newt) newr (r % newr) := by
        simp [FieldElement.egcdFuel, h0]
      rw [hstep]
      set q : Int := ((r / newr : Nat) : Int) with hq
      have hqnn : 0 ≤ q := Int.natCast_nonneg _
      have hmd : ((r % newr : Nat) : Int) = (r : Int) - q * (newr : Int) := by
        have h : ((r % newr : Nat) : Int) + (newr : Int) * ((r / newr : Nat) : Int) = (r : Int) := by
          exact_mod_cast congrArg (Nat.cast : Nat → Int) (Nat.mod_add_div r newr)
        rw [hq]
        linarith
      have hrmod : r % newr < newr := Nat.mod_lt _ hnewrpos
      have hc2' : (t - q * newt) * v ≡ ((r % newr : Nat) : Int) [ZMOD (P : Int)] := by
        have hexp : (t - q * newt) * (v : Int) = t * v - q * (newt * v) := by ring
        rw [hexp, hmd]
        exact hc1.sub (hc2.mul_left q)
      have hr1 : (1 : Int) ≤ (r : Int) := by exact_mod_cast Nat.one_le_iff_ne_zero.mpr (by omega)
      rcases hsum with ⟨ht, hnt, hs⟩ | ⟨ht, hnt, hs⟩
      · -- here t ≤ 0 ≤ newt; the new state satisfies the second disjunct
        have hntP : newt ≤ (P : Int) := by
          nlinarith [mul_nonneg (neg_nonneg.mpr ht) (Int.natCast_nonneg newr)]
        exact ih newt (t - q * newt) newr (r % newr) (by omega) hrmod hc2 hc2'
          (Or.inr ⟨hnt, by nlinarith [mul_nonneg hqnn hnt],
            by rw [hmd]; ring_nf; ring_nf at hs; linarith⟩)
          ⟨by linarith, hntP⟩
      · have hntP : -(P : Int) ≤ newt := by
          nlinarith [mul_nonneg ht (Int.natCast_nonneg newr)]
        exact ih newt (t - q * newt) newr (r % newr) (by omega) hrmod hc2 hc2'
          (Or.inl ⟨hnt, by nlinarith [mul_nonneg hqnn (neg_nonneg.mpr hnt)],
            by rw [hmd]; ring_nf; ring_nf at hs; linarith⟩)
          ⟨hntP, by linarith⟩

/-- On nonzero input the extended Euclidean loop terminates with remainder 1
and a Bezout coefficient congruent to the field inverse, so
`FieldElement::inverse` returns exactly the multiplicative inverse. -/
theorem FieldElement.inverse_ok (a : F) (ha : a ≠ 0) :
    FieldElement.inverse a = .ok a⁻¹ := by
  have hval : a.val ≠ 0 := fun h => ha ((ZMod.val_eq_zero a).mp h)
  have hvlt : a.val < P := ZMod.val_lt a
  obtain ⟨tf, rf, ntf, heq, hc, hc0, hprod, hb1, hb2⟩ :=
    egcdFuel_spec a.val (a.val + 1) 0 1 P a.val (by omega) (by omega)
      (by simp [Int.ModEq])
      (by simp [Int.ModEq])
      (Or.inl ⟨le_refl 0, by norm_num, by push_cast; ring⟩)
      ⟨by norm_num, by norm_num⟩
  have hdvd : rf ∣ P := by
    have hd : (rf : Int) ∣ (P : Int) := Dvd.intro ntf (by linarith [hprod])
    exact_mod_cast hd
  have hrf1 : rf = 1 := by
    rcases Nat.Prime.eq_one_or_self_of_dvd P_prime rf hdvd with h | h
    · exact h
    · exfalso
      subst h
      have hP0 : (P : Int) ≠ 0 := by norm_num
      have hntf1 : ntf = 1 := by
        refine mul_right_cancel₀ hP0 ?_
        rw [one_mul]
        exact hprod
      rw [hntf1, one_mul] at hc0
      have hdvd2 : (P : Int) ∣ (a.val : Int) := by
        have h2 := Int.ModEq.dvd hc0
        simpa [dvd_neg] using h2
      have hdvd3 : P ∣ a.val := by exact_mod_cast hdvd2
      have := Nat.eq_zero_of_dvd_of_lt hdvd3 hvlt
      omega
  unfold FieldElement.inverse
  rw [if_neg hval]
  simp only [heq, hrf1]
  rw [if_neg (by norm_num)]
  have hcong : tf * a.val ≡ 1 [ZMOD (P : Int)] := by
    rw [hrf1] at hc
    simpa using hc
  set t2 : Int := if tf < 0 then tf + (P : Int) else tf with ht2
  have ht2nn : 0 ≤ t2 := by
    rw [ht2]; split <;> [linarith; linarith]
  have ht2c : t2 ≡ tf [ZMOD (P : Int)] := by
    rw [ht2]; split
    · exact (Int.modEq_iff_dvd.mpr (by simp)).symm
    · exact Int.ModEq.refl _
  have hw : a * ((t2.toNat : Nat) : F) = 1 := by
    have hcast : ((t2.toNat : Nat) : F) = ((t2 : Int) : F) := by
      rw [← Int.cast_natCast, Int.toNat_of_nonneg ht2nn]
    rw [hcast]
    have haa : ((a.val : Nat) : F) = a := ZMod.natCast_rightInverse a
    calc a * ((t2 : Int) : F) = ((t2 * a.val : Int) : F) := by
          push_cast
          rw [haa]
          ring
      _ = ((1 : Int) : F) := by
          rw [(ZMod.intCast_eq_intCast_iff' _ _ _).mpr ((ht2c.mul_right _).trans hcong)]
      _ = 1 := by norm_num
  have hinv : a⁻¹ = ((t2.toNat : Nat) : F) := inv_eq_of_mul_eq_one_right hw
  rw [hinv]

/-- `inverse` on the additive identity takes the throw branch. -/
theorem FieldElement.inverse_zero :
    FieldElement.inverse 0 = .error "Cannot invert zero" := by decide

/-- `operator/` with a nonzero denominator returns `a * b⁻¹`. -/
theorem FieldElement.div_ok (a b : F) (hb : b ≠ 0) :
    FieldElement.div a b = .ok (a * b⁻¹) := by
  unfold FieldElement.div
  rw [FieldElement.inverse_ok b hb]
  rfl

/-- `operator/` with denominator zero propagates the inverse error. -/
theorem FieldElement.div_zero (a : F) :
    FieldElement.div a 0 = .error "Cannot invert zero" := by
  unfold FieldElement.div
  rw [FieldElement.inverse_zero]
  rfl

/-! ## Polynomial evaluation lemmas -/

theorem evalLoop_eq (x : F) :
    ∀ (p : List F) (res xp : F),
    evalLoop x p res xp
      = res + xp * Finset.sum (Finset.range p.length) (fun i => p.getD i 0 * x ^ i) := by
  intro p
  induction p with
  | nil => intro res xp; simp [evalLoop]
  | cons c rest ih =>
    intro res xp
    rw [evalLoop, ih, List.length_cons, Finset.sum_range_succ']
    simp only [List.getD_cons_succ, List.getD_cons_zero, pow_zero]
    have hterm : ∀ i, rest.getD i 0 * x ^ (i + 1) = rest.getD i 0 * x ^ i * x := by
      intro i; ring
    rw [Finset.sum_congr rfl (fun i _ => hterm i), ← Finset.sum_mul]
    ring

theorem polyEval_eq_sum (p : Coeffs) (x : F) :
    polyEval p x = Finset.sum (Finset.range p.length) (fun i => p.getD i 0 * x ^ i) := by
  rw [polyEval, evalLoop_eq]
  ring

theorem sum_getD_extend (p : List F) (x : F) (m : Nat) (h : p.length ≤ m) :
    Finset.sum (Finset.range m) (fun i => p.getD i 0 * x ^ i)
      = Finset.sum (Finset.range p.length) (fun i => p.getD i 0 * x ^ i) := by
  refine (Finset.sum_subset (Finset.range_subset.mpr h) ?_).symm
  intro i _ hnot
  have hlen : p.length ≤ i := by
    simp only [Finset.mem_range, not_lt] at hnot
    exact hnot
  rw [List.getD_eq_default _ _ hlen, zero_mul]

theorem getD_map_range (m k : Nat) (f : Nat → F) :
    ((List.range m).map f).getD k 0 = if k < m then f k else 0 := by
  by_cases h : k < m
  · rw [if_pos h]
    rw [List.getD_eq_getElem?_getD]
    simp [List.getElem?_map, List.getElem?_range h]
  · rw [if_neg h]
    refine List.getD_eq_default _ _ ?_
    simpa using Nat.le_of_not_lt h

theorem polyEval_polyAdd (p q : Coeffs) (x : F) :
    polyEval (polyAdd p q) x = polyEval p x + polyEval q x := by
  rw [polyEval_eq_sum, polyEval_eq_sum, polyEval_eq_sum, polyAdd]
  rw [List.length_map, List.length_range]
  have hcong : ∀ k ∈ Finset.range (max p.length q.length),
      ((List.range (max p.length q.length)).map (fun i => p.getD i 0 + q.getD i 0)).getD k 0 * x ^ k
        = p.getD k 0 * x ^ k + q.getD k 0 * x ^ k := by
    intro k hk
    rw [getD_map_range]
    rw [if_pos (Finset.mem_range.mp hk)]
    ring
  rw [Finset.sum_congr rfl hcong, Finset.sum_add_distrib,
    sum_getD_extend p x _ (le_max_left _ _), sum_getD_extend q x _ (le_max_right _ _)]

theorem getD_map_mul (p : List F) (c : F) (i : Nat) :
    (p.map (fun a => a * c)).getD i 0 = p.getD i 0 * c := by
  by_cases h : i < p.length
  · rw [List.getD_eq_getElem?_getD, List.getD_eq_getElem?_getD]
    simp [List.getElem?_map, List.getElem?_eq_getElem h]
  · have hle : p.length ≤ i := Nat.le_of_not_lt h
    rw [List.getD_eq_default _ _ (by simpa using hle), List.getD_eq_default _ _ hle, zero_mul]

theorem polyEval_polyScale (p : Coeffs) (c x : F) :
    polyEval (polyScale p c) x = polyEval p x * c := by
  rw [polyEval_eq_sum, polyEval_eq_sum, polyScale, List.length_map, Finset.sum_mul]
  refine Finset.sum_congr rfl ?_
  intro i _
  rw [getD_map_mul]
  ring

theorem polyEval_polyMul (p q : Coeffs) (x : F) :
    polyEval (polyMul p q) x = polyEval p x * polyEval q x := by
  by_cases hp : p.isEmpty
  · have : p = [] := List.isEmpty_iff.mp hp
    subst this
    simp [polyMul, polyEval, evalLoop]
  by_cases hq : q.isEmpty
  · have : q = [] := List.isEmpty_iff.mp hq
    subst this
    simp [polyMul, polyEval, evalLoop]
  have hp1 : 1 ≤ p.length := by
    cases p with
    | nil => simp at hp
    | cons a l => simp
  have hq1 : 1 ≤ q.length := by
    cases q with
    | nil => simp at hq
    | cons a l => simp
  rw [polyMul, if_neg (by simp [hp, hq])]
  rw [polyEval_eq_sum, List.length_map, List.length_range]
  have hcong : ∀ k ∈ Finset.range (p.length + q.length - 1),
      ((List.range (p.length + q.length - 1)).map
        (fun k => Finset.sum (Finset.range p.length)
          (fun i => if i ≤ k ∧ k - i < q.length then p.getD i 0 * q.getD (k - i) 0 else 0))).getD k 0 * x ^ k
        = Finset.sum (Finset.range p.length)
            (fun i => if i ≤ k ∧ k - i < q.length then p.getD i 0 * q.getD (k - i) 0 * x ^ k else 0) := by
    intro k hk
    rw [getD_map_range, if_pos (Finset.mem_range.mp hk), Finset.sum_mul]
    refine Finset.sum_congr rfl ?_
    intro i _
    rw [ite_mul, zero_mul]
  rw [Finset.sum_congr rfl hcong, Finset.sum_comm]
  have hinner : ∀ i ∈ Finset.range p.length,
      Finset.sum (Finset.range (p.length + q.length - 1))
        (fun k => if i ≤ k ∧ k - i < q.length then p.getD i 0 * q.getD (k - i) 0 * x ^ k else 0)
        = p.getD i 0 * x ^ i * Finset.sum (Finset.range q.length) (fun j => q.getD j 0 * x ^ j) := by
    intro i hi
    have hi2 : i < p.length := Finset.mem_range.mp hi
    rw [← Finset.sum_filter]
    have hfil : (Finset.range (p.length + q.length - 1)).filter (fun k => i ≤ k ∧ k - i < q.length)
        = Finset.Ico i (i + q.length) := by
      ext k
      simp only [Finset.mem_filter, Finset.mem_range, Finset.mem_Ico]
      omega
    rw [hfil, Finset.sum_Ico_eq_sum_range]
    have : i + q.length - i = q.length := by omega
    rw [this, Finset.mul_sum]
    refine Finset.sum_congr rfl ?_
    intro j _
    have : i + j - i = j := by omega
    rw [this, pow_add]
    ring
  rw [Finset.sum_congr rfl hinner, ← Finset.sum_mul, polyEval_eq_sum, polyEval_eq_sum]

/-! ## Generic Except and mapM helpers -/

theorem bind_ok {α β : Type} {e : Except String α} {f : α → Except String β} {b : β}
    (h : (e >>= f) = .ok b) : ∃ a, e = .ok a ∧ f a = .ok b := by
  cases e with
  | error msg => simp [Bind.bind, Except.bind] at h
  | ok a => exact ⟨a, rfl, h⟩

theorem pure_ok {β : Type} {b c : β} (h : (pure b : Except String β) = .ok c) : b = c := by
  simpa [pure, Except.pure] using h

theorem mapM_ok_length {α β : Type} (f : α → Except String β) :
    ∀ (l : List α) (l2 : List β), l.mapM f = .ok l2 → l2.length = l.length := by
  intro l
  induction l with
  | nil =>
    intro l2 h
    rw [← List.mapM'_eq_mapM, List.mapM'_nil] at h
    have h2 := pure_ok h
    simp [← h2]
  | cons a rest ih =>
    intro l2 h
    rw [← List.mapM'_eq_mapM, List.mapM'_cons] at h
    obtain ⟨b, _, h⟩ := bind_ok h
    obtain ⟨bs, hbs, h⟩ := bind_ok h
    rw [List.mapM'_eq_mapM] at hbs
    have := pure_ok h
    subst this
    simpa using ih bs hbs

theorem mapM_ok_getD {α β : Type} (f : α → Except String β) :
    ∀ (l : List α) (l2 : List β), l.mapM f = .ok l2 →
    ∀ (i : Nat) (da : α) (db : β), i < l.length → f (l.getD i da) = .ok (l2.getD i db) := by
  intro l
  induction l with
  | nil =>
    intro l2 h i da db hi
    simp at hi
  | cons a rest ih =>
    intro l2 h i da db hi
    rw [← List.mapM'_eq_mapM, List.mapM'_cons] at h
    obtain ⟨b, hb, h⟩ := bind_ok h
    obtain ⟨bs, hbs, h⟩ := bind_ok h
    rw [List.mapM'_eq_mapM] at hbs
    have := pure_ok h
    subst this
    cases i with
    | zero => simpa using hb
    | succ i =>
      have hi2 : i < rest.length := by simpa using hi
      simpa using ih bs hbs i da db hi2

theorem range_getD (n i : Nat) (h : i < n) : (List.range n).getD i 0 = i := by
  rw [List.getD_eq_getElem?_getD]
  simp [List.getElem?_range h]

theorem getD_map_lt {α β : Type} (f : α → β) :
    ∀ (l : List α) (i : Nat), i < l.length → ∀ (d : β) (d2 : α),
    (l.map f).getD i d = f (l.getD i d2) := by
  intro l
  induction l with
  | nil => intro i hi; simp at hi
  | cons a rest ih =>
    intro i hi d d2
    cases i with
    | zero => rfl
    | succ i =>
      have hi2 : i < rest.length := by simpa using hi
      simpa using ih i hi2 d d2

theorem list_range_map_sum (n : Nat) (f : Nat → F) :
    ((List.range n).map f).sum = Finset.sum (Finset.range n) f := by
  induction n with
  | zero => simp
  | succ n ih =>
    rw [List.range_succ, Finset.sum_range_succ, List.map_append, List.sum_append, ih]
    simp

/-! ## Lagrange interpolation lemmas -/

namespace LagrangeInterpolation

theorem polyEval_linear (c d t : F) : polyEval [c, d] t = c + d * t := by
  simp [polyEval, evalLoop]

theorem basisLoop_ok_ne (j : Nat) (xs : List F) :
    ∀ (idxs : List Nat) (acc p : Coeffs),
    basisLoop j xs idxs acc = .ok p →
    ∀ i ∈ idxs, i ≠ j → xs.getD j 0 - xs.getD i 0 ≠ 0 := by
  intro idxs
  induction idxs with
  | nil => intro acc p h i hi; simp at hi
  | cons i0 rest ih =>
    intro acc p h i hi hij
    by_cases h0 : i0 = j
    · rw [basisLoop, if_pos h0] at h
      rcases List.mem_cons.mp hi with he | hm
      · exact absurd (he.trans h0) hij
      · exact ih acc p h i hm hij
    · rw [basisLoop, if_neg h0] at h
      obtain ⟨inv, hinv, h⟩ := bind_ok h
      rcases List.mem_cons.mp hi with he | hm
      · subst he
        intro hzero
        rw [hzero, FieldElement.div_zero] at hinv
        exact Except.noConfusion hinv
      · exact ih _ p h i hm hij

theorem basisLoop_spec (j : Nat) (xs : List F) :
    ∀ (idxs : List Nat) (acc : Coeffs),
    (∀ i ∈ idxs, i ≠ j → xs.getD j 0 - xs.getD i 0 ≠ 0) →
    ∃ p, basisLoop j xs idxs acc = .ok p ∧
      ∀ t, polyEval p t
        = polyEval acc t *
          ((idxs.filter (fun i => decide (i ≠ j))).map
            (fun i => (t - xs.getD i 0) * (xs.getD j 0 - xs.getD i 0)⁻¹)).prod := by
  intro idxs
  induction idxs with
  | nil =>
    intro acc _
    exact ⟨acc, rfl, fun t => by simp⟩
  | cons i0 rest ih =>
    intro acc hne
    by_cases h0 : i0 = j
    · obtain ⟨p, hp, he⟩ := ih acc (fun i hi hij => hne i (List.mem_cons_of_mem _ hi) hij)
      refine ⟨p, ?_, ?_⟩
      · rw [basisLoop, if_pos h0]
        exact hp
      · intro t
        rw [he t]
        have : (i0 :: rest).filter (fun i => decide (i ≠ j))
            = rest.filter (fun i => decide (i ≠ j)) := by
          simp [List.filter_cons, h0]
        rw [this]
    · have hden : xs.getD j 0 - xs.getD i0 0 ≠ 0 :=
        hne i0 (List.mem_cons_self _ _) h0
      obtain ⟨p, hp, he⟩ := ih (polyScale (polyMul acc [0 - xs.getD i0 0, 1])
          ((xs.getD j 0 - xs.getD i0 0)⁻¹))
        (fun i hi hij => hne i (List.mem_cons_of_mem _ hi) hij)
      refine ⟨p, ?_, ?_⟩
      · simp only [basisLoop, if_neg h0]
        rw [show FieldElement.div 1 (xs.getD j 0 - xs.getD i0 0)
            = .ok ((xs.getD j 0 - xs.getD i0 0)⁻¹) by
          rw [FieldElement.div_ok _ _ hden, one_mul]]
        exact hp
      · intro t
        rw [he t, polyEval_polyScale, polyEval_polyMul]
        have : (i0 :: rest).filter (fun i => decide (i ≠ j))
            = i0 :: rest.filter (fun i => decide (i ≠ j)) := by
          simp [List.filter_cons, h0]
        rw [this, List.map_cons, List.prod_cons, polyEval_linear]
        set pr := ((rest.filter (fun i => decide (i ≠ j))).map
          (fun i => (t - xs.getD i 0) * (xs.getD j 0 - xs.getD i 0)⁻¹)).prod with hpr
        ring

end LagrangeInterpolation

namespace LagrangeInterpolation

theorem basisPolynomial_ok_ne (j : Nat) (xs : List F) (p : Coeffs)
    (h : basisPolynomial j xs = .ok p) :
    ∀ i < xs.length, i ≠ j → xs.getD j 0 - xs.getD i 0 ≠ 0 := by
  intro i hi hij
  exact basisLoop_ok_ne j xs (List.range xs.length) [1] p h i
    (List.mem_range.mpr hi) hij

theorem basisPolynomial_spec (j : Nat) (xs : List F) (_hj : j < xs.length)
    (hne : ∀ i < xs.length, i ≠ j → xs.getD j 0 - xs.getD i 0 ≠ 0) :
    ∃ p, basisPolynomial j xs = .ok p ∧
      polyEval p (xs.getD j 0) = 1 ∧
      ∀ k < xs.length, k ≠ j → polyEval p (xs.getD k 0) = 0 := by
  obtain ⟨p, hp, he⟩ := basisLoop_spec j xs (List.range xs.length) [1]
    (fun i hi hij => hne i (List.mem_range.mp hi) hij)
  have hone : polyEval [1] = fun t => (1 : F) := by
    funext t
    simp [polyEval, evalLoop]
  refine ⟨p, hp, ?_, ?_⟩
  · rw [he, hone]
    rw [one_mul]
    refine List.prod_eq_one ?_
    intro a ha
    obtain ⟨i, hi, rfl⟩ := List.mem_map.mp ha
    have hmem := List.mem_filter.mp hi
    have hirange : i < xs.length := List.mem_range.mp hmem.1
    have hineq : i ≠ j := by simpa using hmem.2
    exact mul_inv_cancel₀ (hne i hirange hineq)
  · intro k hk hkj
    rw [he, hone, one_mul]
    refine List.prod_eq_zero ?_
    refine List.mem_map.mpr ⟨k, ?_, ?_⟩
    · refine List.mem_filter.mpr ⟨List.mem_range.mpr hk, by simpa using hkj⟩
    · rw [sub_self, zero_mul]

theorem interpLoop_ok_basis (xs ys : List F) :
    ∀ (idxs : List Nat) (acc p : Coeffs),
    interpLoop xs ys idxs acc = .ok p →
    ∀ j ∈ idxs, ∃ bp, basisPolynomial j xs = .ok bp := by
  intro idxs
  induction idxs with
  | nil => intro acc p h j hj; simp at hj
  | cons j0 rest ih =>
    intro acc p h j hj
    rw [interpLoop] at h
    obtain ⟨bp0, hbp0, h⟩ := bind_ok h
    rcases List.mem_cons.mp hj with he | hm
    · exact ⟨bp0, he ▸ hbp0⟩
    · exact ih _ p h j hm

theorem interpLoop_spec (xs ys : List F) :
    ∀ (idxs : List Nat) (acc : Coeffs),
    (∀ j ∈ idxs, basisPolynomial j xs = .ok (basisOr j xs)) →
    ∃ p, interpLoop xs ys idxs acc = .ok p ∧
      ∀ t, polyEval p t = polyEval acc t +
        (idxs.map (fun j => polyEval (basisOr j xs) t * ys.getD j 0)).sum := by
  intro idxs
  induction idxs with
  | nil =>
    intro acc _
    exact ⟨acc, rfl, fun t => by simp⟩
  | cons j0 rest ih =>
    intro acc hok
    obtain ⟨p, hp, he⟩ := ih (polyAdd acc (polyScale (basisOr j0 xs) (ys.getD j0 0)))
      (fun j hj => hok j (List.mem_cons_of_mem _ hj))
    refine ⟨p, ?_, ?_⟩
    · rw [interpLoop, hok j0 (List.mem_cons_self _ _)]
      exact hp
    · intro t
      rw [he t, polyEval_polyAdd, polyEval_polyScale, List.map_cons, List.sum_cons]
      ring

theorem interpolate_spec (xs ys : List F) (hlen : xs.length = ys.length)
    (hne : ∀ j < xs.length, ∀ i < xs.length, i ≠ j → xs.getD j 0 - xs.getD i 0 ≠ 0) :
    ∃ p, interpolate xs ys = .ok p ∧
      ∀ k < xs.length, polyEval p (xs.getD k 0) = ys.getD k 0 := by
  have hbasis : ∀ j < xs.length, basisPolynomial j xs = .ok (basisOr j xs) ∧
      polyEval (basisOr j xs) (xs.getD j 0) = 1 ∧
      ∀ k < xs.length, k ≠ j → polyEval (basisOr j xs) (xs.getD k 0) = 0 := by
    intro j hj
    obtain ⟨bp, hbp, h1, h0⟩ := basisPolynomial_spec j xs hj (hne j hj)
    have : basisOr j xs = bp := by
      rw [basisOr, hbp]
    rw [this]
    exact ⟨hbp, h1, h0⟩
  obtain ⟨p, hp, he⟩ := interpLoop_spec xs ys (List.range xs.length) [0]
    (fun j hj => (hbasis j (List.mem_range.mp hj)).1)
  refine ⟨p, ?_, ?_⟩
  · rw [interpolate, if_neg (by omega)]
    exact hp
  · intro k hk
    rw [he]
    have hzero : polyEval [0] (xs.getD k 0) = 0 := by
      simp [polyEval, evalLoop]
    rw [hzero, zero_add, list_range_map_sum]
    rw [Finset.sum_eq_single k]
    · rw [(hbasis k hk).2.1, one_mul]
    · intro j hj hjk
      rw [(hbasis j (Finset.mem_range.mp hj)).2.2 k hk (Ne.symm hjk), zero_mul]
    · intro hk2
      exact absurd (Finset.mem_range.mpr hk) hk2

theorem interpolate_ok_eval (xs ys p : List F) (h : interpolate xs ys = .ok p) :
    ∀ k < xs.length, polyEval p (xs.getD k 0) = ys.getD k 0 := by
  have hlen : xs.length = ys.length := by
    by_contra hne
    rw [interpolate, if_pos hne] at h
    exact Except.noConfusion h
  have hloop : interpLoop xs ys (List.range xs.length) [0] = .ok p := by
    rw [interpolate, if_neg (by omega)] at h
    exact h
  have hne : ∀ j < xs.length, ∀ i < xs.length, i ≠ j → xs.getD j 0 - xs.getD i 0 ≠ 0 := by
    intro j hj i hi hij
    obtain ⟨bp, hbp⟩ := interpLoop_ok_basis xs ys (List.range xs.length) [0] p hloop
      j (List.mem_range.mpr hj)
    exact basisPolynomial_ok_ne j xs bp hbp i hi hij
  obtain ⟨p2, hp2, he2⟩ := interpolate_spec xs ys hlen hne
  have : p2 = p := by
    rw [h] at hp2
    exact ((Except.ok.injEq _ _).mp hp2).symm
  exact this ▸ he2

end LagrangeInterpolation

/-- C6: for every list of pairwise-distinct field elements `xs` and every
equal-length list `ys`, `LagrangeInterpolation::interpolate(xs, ys)` returns
a polynomial that evaluates to `ys[i]` at `xs[i]` for every index `i`. -/
theorem interpolate_roundtrip (xs ys : List F)
    (hlen : xs.length = ys.length)
    (hdist : ∀ i < xs.length, ∀ j < xs.length, i ≠ j → xs.getD i 0 ≠ xs.getD j 0) :
    ∃ p, LagrangeInterpolation.interpolate xs ys = .ok p ∧
      ∀ i < xs.length, polyEval p (xs.getD i 0) = ys.getD i 0 := by
  refine LagrangeInterpolation.interpolate_spec xs ys hlen ?_
  intro j hj i hi hij
  exact sub_ne_zero_of_ne (hdist j hj i hi (Ne.symm hij))

/-! ## R1CS verification characterization -/

theorem dotRow_eq_sum (row w : List F) (n : Nat) :
    dotRow row w n = Finset.sum (Finset.range n) (fun j => row.getD j 0 * w.getD j 0) := by
  rw [dotRow]
  induction n with
  | zero => simp
  | succ n ih =>
    rw [List.range_succ, List.foldl_append, ih, Finset.sum_range_succ]
    rfl

theorem verifyRows_iff (r : R1CS) (w : List F) :
    ∀ idxs : List Nat, r.verifyRows w idxs = true ↔ ∀ i ∈ idxs, r.rowSat w i := by
  intro idxs
  induction idxs with
  | nil => simp [R1CS.verifyRows]
  | cons i0 rest ih =>
    by_cases hs : r.rowSat w i0
    · have hs2 : ¬(dotRow (r.A.getD i0 []) w r.num_variables *
          dotRow (r.B.getD i0 []) w r.num_variables
          ≠ dotRow (r.C.getD i0 []) w r.num_variables) := by
        rw [R1CS.rowSat] at hs
        exact fun hcon => hcon hs
      simp only [R1CS.verifyRows, if_neg hs2]
      rw [ih]
      constructor
      · intro hrest i hi
        rcases List.mem_cons.mp hi with he | hm
        · exact he ▸ hs
        · exact hrest i hm
      · intro hall i hi
        exact hall i (List.mem_cons_of_mem _ hi)
    · have hs2 : dotRow (r.A.getD i0 []) w r.num_variables *
          dotRow (r.B.getD i0 []) w r.num_variables
          ≠ dotRow (r.C.getD i0 []) w r.num_variables := by
        rw [R1CS.rowSat] at hs
        exact hs
      simp only [R1CS.verifyRows, if_pos hs2]
      constructor
      · intro hfalse
        exact Bool.noConfusion hfalse
      · intro hall
        exact absurd (hall i0 (List.mem_cons_self _ _)) hs

/-! ## QAP bridge lemmas -/

theorem computeFold_eval (Ap Bp Cp : List Coeffs) (w : List F) (t : F) :
    ∀ (idxs : List Nat) (acc : Coeffs × Coeffs × Coeffs),
    polyEval (idxs.foldl (fun acc i =>
        (polyAdd acc.1 (polyScale (Ap.getD i []) (w.getD i 0)),
         polyAdd acc.2.1 (polyScale (Bp.getD i []) (w.getD i 0)),
         polyAdd acc.2.2 (polyScale (Cp.getD i []) (w.getD i 0)))) acc).1 t
        = polyEval acc.1 t + (idxs.map (fun i => polyEval (Ap.getD i []) t * w.getD i 0)).sum
      ∧ polyEval (idxs.foldl (fun acc i =>
        (polyAdd acc.1 (polyScale (Ap.getD i []) (w.getD i 0)),
         polyAdd acc.2.1 (polyScale (Bp.getD i []) (w.getD i 0)),
         polyAdd acc.2.2 (polyScale (Cp.getD i []) (w.getD i 0)))) acc).2.1 t
        = polyEval acc.2.1 t + (idxs.map (fun i => polyEval (Bp.getD i []) t * w.getD i 0)).sum
      ∧ polyEval (idxs.foldl (fun acc i =>
        (polyAdd acc.1 (polyScale (Ap.getD i []) (w.getD i 0)),
         polyAdd acc.2.1 (polyScale (Bp.getD i []) (w.getD i 0)),
         polyAdd acc.2.2 (polyScale (Cp.getD i []) (w.getD i 0)))) acc).2.2 t
        = polyEval acc.2.2 t + (idxs.map (fun i => polyEval (Cp.getD i []) t * w.getD i 0)).sum := by
  intro idxs
  induction idxs with
  | nil => intro acc; simp
  | cons i0 rest ih =>
    intro acc
    rw [List.foldl_cons]
    obtain ⟨h1, h2, h3⟩ := ih (polyAdd acc.1 (polyScale (Ap.getD i0 []) (w.getD i0 0)),
       polyAdd acc.2.1 (polyScale (Bp.getD i0 []) (w.getD i0 0)),
       polyAdd acc.2.2 (polyScale (Cp.getD i0 []) (w.getD i0 0)))
    refine ⟨?_, ?_, ?_⟩
    · rw [h1]
      simp only [polyEval_polyAdd, polyEval_polyScale, List.map_cons, List.sum_cons]
      ring
    · rw [h2]
      simp only [polyEval_polyAdd, polyEval_polyScale, List.map_cons, List.sum_cons]
      ring
    · rw [h3]
      simp only [polyEval_polyAdd, polyEval_polyScale, List.map_cons, List.sum_cons]
      ring

theorem computePolynomials_eval (qap : QAP) (w : List F) (t : F) :
    polyEval (qap.computePolynomials w).1 t
        = Finset.sum (Finset.range qap.num_variables)
            (fun i => polyEval (qap.A_polys.getD i []) t * w.getD i 0)
      ∧ polyEval (qap.computePolynomials w).2.1 t
        = Finset.sum (Finset.range qap.num_variables)
            (fun i => polyEval (qap.B_polys.getD i []) t * w.getD i 0)
      ∧ polyEval (qap.computePolynomials w).2.2 t
        = Finset.sum (Finset.range qap.num_variables)
            (fun i => polyEval (qap.C_polys.getD i []) t * w.getD i 0) := by
  obtain ⟨h1, h2, h3⟩ := computeFold_eval qap.A_polys qap.B_polys qap.C_polys w t
    (List.range qap.num_variables) ([0], [0], [0])
  have hz : polyEval [0] t = 0 := by simp [polyEval, evalLoop]
  rw [QAP.computePolynomials]
  refine ⟨?_, ?_, ?_⟩
  · rw [h1, list_range_map_sum]
    simp [hz]
  · rw [h2, list_range_map_sum]
    simp [hz]
  · rw [h3, list_range_map_sum]
    simp [hz]

theorem fromR1CS_ok (r : R1CS) (qap : QAP) (h : QAP.fromR1CS r = .ok qap) :
    qap.num_variables = r.num_variables ∧
    ∀ v < r.num_variables,
      LagrangeInterpolation.interpolate
          ((List.range r.num_constraints).map (fun i => ((i + 1 : Nat) : F)))
          ((List.range r.num_constraints).map (fun k => (r.A.getD k []).getD v 0))
        = .ok (qap.A_polys.getD v []) ∧
      LagrangeInterpolation.interpolate
          ((List.range r.num_constraints).map (fun i => ((i + 1 : Nat) : F)))
          ((List.range r.num_constraints).map (fun k => (r.B.getD k []).getD v 0))
        = .ok (qap.B_polys.getD v []) ∧
      LagrangeInterpolation.interpolate
          ((List.range r.num_constraints).map (fun i => ((i + 1 : Nat) : F)))
          ((List.range r.num_constraints).map (fun k => (r.C.getD k []).getD v 0))
        = .ok (qap.C_polys.getD v []) := by
  rw [QAP.fromR1CS] at h
  obtain ⟨triples, htrip, h⟩ := bind_ok h
  have hq := pure_ok h
  subst hq
  have hlen : triples.length = r.num_variables := by
    rw [mapM_ok_length _ _ _ htrip, List.length_range]
  refine ⟨rfl, ?_⟩
  intro v hv
  have hvt : v < triples.length := by omega
  have hstep := mapM_ok_getD _ _ _ htrip v 0 ([], [], []) (by simpa using hv)
  rw [range_getD _ _ hv] at hstep
  obtain ⟨pa, hpa, hstep⟩ := bind_ok hstep
  obtain ⟨pb, hpb, hstep⟩ := bind_ok hstep
  obtain ⟨pc, hpc, hstep⟩ := bind_ok hstep
  have htv := pure_ok hstep
  refine ⟨?_, ?_, ?_⟩
  · rw [getD_map_lt (fun tr => tr.1) triples v hvt [] ([], [], []), ← htv]
    exact hpa
  · rw [getD_map_lt (fun tr => tr.2.1) triples v hvt [] ([], [], []), ← htv]
    exact hpb
  · rw [getD_map_lt (fun tr => tr.2.2) triples v hvt [] ([], [], []), ← htv]
    exact hpc

/-- Pointwise bridge: at the evaluation point of constraint `i`, the three
combined polynomials evaluate to exactly the three dot products of row `i`. -/
theorem combined_eval_eq_dot (r : R1CS) (witness : List F) (qap : QAP)
    (hq : QAP.fromR1CS r = .ok qap) (i : Nat) (hi : i < r.num_constraints) :
    polyEval (qap.computePolynomials witness).1 ((i + 1 : Nat) : F)
        = dotRow (r.A.getD i []) witness r.num_variables
      ∧ polyEval (qap.computePolynomials witness).2.1 ((i + 1 : Nat) : F)
        = dotRow (r.B.getD i []) witness r.num_variables
      ∧ polyEval (qap.computePolynomials witness).2.2 ((i + 1 : Nat) : F)
        = dotRow (r.C.getD i []) witness r.num_variables := by
  obtain ⟨hnv, hvars⟩ := fromR1CS_ok r qap hq
  set xs : List F := (List.range r.num_constraints).map (fun i => ((i + 1 : Nat) : F)) with hxs
  have hxslen : xs.length = r.num_constraints := by
    rw [hxs, List.length_map, List.length_range]
  have hxsi : xs.getD i 0 = ((i + 1 : Nat) : F) := by
    rw [hxs, getD_map_range, if_pos hi]
  have heval : ∀ (M : List (List F)) (polys : List Coeffs),
      (∀ v < r.num_variables,
        LagrangeInterpolation.interpolate xs
          ((List.range r.num_constraints).map (fun k => (M.getD k []).getD v 0))
          = .ok (polys.getD v [])) →
      ∀ v < r.num_variables,
        polyEval (polys.getD v []) ((i + 1 : Nat) : F) = (M.getD i []).getD v 0 := by
    intro M polys hint v hv
    have h := LagrangeInterpolation.interpolate_ok_eval xs _ _ (hint v hv) i (by omega)
    rw [hxsi] at h
    rw [h, getD_map_range, if_pos hi]
  obtain ⟨h1, h2, h3⟩ := computePolynomials_eval qap witness ((i + 1 : Nat) : F)
  rw [dotRow_eq_sum, dotRow_eq_sum, dotRow_eq_sum]
  refine ⟨?_, ?_, ?_⟩
  · rw [h1, hnv]
    refine Finset.sum_congr rfl ?_
    intro v hv
    rw [heval r.A qap.A_polys (fun v2 hv2 => (hvars v2 hv2).1) v (Finset.mem_range.mp hv)]
  · rw [h2, hnv]
    refine Finset.sum_congr rfl ?_
    intro v hv
    rw [heval r.B qap.B_polys (fun v2 hv2 => (hvars v2 hv2).2.1) v (Finset.mem_range.mp hv)]
  · rw [h3, hnv]
    refine Finset.sum_congr rfl ?_
    intro v hv
    rw [heval r.C qap.C_polys (fun v2 hv2 => (hvars v2 hv2).2.2) v (Finset.mem_range.mp hv)]

/-! ## Claim theorems: C1, C6 witness, C7, C8, C9 -/

theorem interpolate_roundtrip_witness :
    ([(1 : F), 2]).length = ([(3 : F), 4]).length ∧
    ∃ p, LagrangeInterpolation.interpolate [(1 : F), 2] [3, 4] = .ok p ∧
      ∀ i < ([(1 : F), 2]).length,
        polyEval p (([(1 : F), 2]).getD i 0) = ([(3 : F), 4]).getD i 0 :=
  ⟨rfl, interpolate_roundtrip [(1 : F), 2] [3, 4] rfl (by decide)⟩

/-- C1: for every R1CS and witness of length `num_variables`, the combined
polynomials from `computePolynomials` on the QAP built by `fromR1CS` satisfy
`A(k) * B(k) = C(k)` at every evaluation point `k ∈ 1..num_constraints`
exactly when every row of the R1CS is satisfied by the witness. -/
theorem qap_bridge (r : R1CS) (witness : List F) (qap : QAP)
    (_hw : witness.length = r.num_variables)
    (hq : QAP.fromR1CS r = .ok qap) :
    (∀ k : Nat, 1 ≤ k → k ≤ r.num_constraints →
        polyEval (qap.computePolynomials witness).1 ((k : Nat) : F)
          * polyEval (qap.computePolynomials witness).2.1 ((k : Nat) : F)
          = polyEval (qap.computePolynomials witness).2.2 ((k : Nat) : F))
      ↔ (∀ i < r.num_constraints, r.rowSat witness i) := by
  constructor
  · intro hpoly i hi
    obtain ⟨e1, e2, e3⟩ := combined_eval_eq_dot r witness qap hq i hi
    rw [R1CS.rowSat, ← e1, ← e2, ← e3]
    exact hpoly (i + 1) (by omega) (by omega)
  · intro hsat k hk1 hk2
    obtain ⟨e1, e2, e3⟩ := combined_eval_eq_dot r witness qap hq (k - 1) (by omega)
    have hk : k - 1 + 1 = k := by omega
    rw [hk] at e1 e2 e3
    rw [e1, e2, e3]
    have hrs := hsat (k - 1) (by omega)
    rw [R1CS.rowSat] at hrs
    exact hrs

theorem qap_bridge_witness :
    ∃ qap, QAP.fromR1CS sysScenarioA = .ok qap ∧
      ((∀ k : Nat, 1 ≤ k → k ≤ sysScenarioA.num_constraints →
          polyEval (qap.computePolynomials [1, 3, 9]).1 ((k : Nat) : F)
            * polyEval (qap.computePolynomials [1, 3, 9]).2.1 ((k : Nat) : F)
            = polyEval (qap.computePolynomials [1, 3, 9]).2.2 ((k : Nat) : F))
        ↔ (∀ i < sysScenarioA.num_constraints, sysScenarioA.rowSat [1, 3, 9] i)) := by
  have hq : QAP.fromR1CS sysScenarioA
      = .ok ⟨[[0], [1], [0]], [[0], [1], [0]], [[0], [0], [1]], [2147483646, 1], 3⟩ := by
    decide
  exact ⟨_, hq, qap_bridge sysScenarioA [1, 3, 9] _ (by decide) hq⟩

/-- C7: `R1CS::verify` returns false on a witness-length mismatch; otherwise
it returns true exactly when every constraint row is satisfied; and when some
row `i` is unsatisfied the result is false for every system with the same
dimensions and the same row `i`, regardless of the other rows (the loop
reports failure at the first unsatisfied row without the later rows being
able to change the outcome). -/
theorem r1cs_verify_spec (r : R1CS) (w : List F) :
    (w.length ≠ r.num_variables → r.verify w = false)
      ∧ (w.length = r.num_variables →
          (r.verify w = true ↔ ∀ i < r.num_constraints, r.rowSat w i))
      ∧ (w.length = r.num_variables →
          ∀ i < r.num_constraints, ¬ r.rowSat w i →
          ∀ r2 : R1CS, r2.num_variables = r.num_variables →
            r2.num_constraints = r.num_constraints →
            r2.A.getD i [] = r.A.getD i [] →
            r2.B.getD i [] = r.B.getD i [] →
            r2.C.getD i [] = r.C.getD i [] →
            r2.verify w = false) := by
  refine ⟨?_, ?_, ?_⟩
  · intro hne
    rw [R1CS.verify, if_pos hne]
  · intro heq
    rw [R1CS.verify, if_neg (by omega)]
    rw [verifyRows_iff]
    constructor
    · intro h i hi
      exact h i (List.mem_range.mpr hi)
    · intro h i hi
      exact h i (List.mem_range.mp hi)
  · intro heq i hi hun r2 hnv hnc ha hb hc
    have hsat2 : ¬ r2.rowSat w i := by
      rw [R1CS.rowSat, ha, hb, hc, hnv]
      rw [R1CS.rowSat] at hun
      exact hun
    have : r2.verify w ≠ true := by
      intro htrue
      rw [R1CS.verify, if_neg (by omega)] at htrue
      rw [verifyRows_iff] at htrue
      exact hsat2 (htrue i (List.mem_range.mpr (by omega)))
    exact Bool.not_eq_true _ ▸ this

theorem r1cs_verify_spec_witness :
    sysScenarioA.verify [1, 3, 9] = true ∧ sysScenarioA.verify [1, 3] = false := by
  constructor
  · exact ((r1cs_verify_spec sysScenarioA [1, 3, 9]).2.1 (by decide)).mpr (by decide)
  · exact (r1cs_verify_spec sysScenarioA [1, 3]).1 (by decide)

/-- C8: `inverse()` fails with the division error on zero, and on every
nonzero field element returns a value that multiplies with the input to the
multiplicative identity. -/
theorem field_inverse_spec :
    FieldElement.inverse (0 : F) = .error "Cannot invert zero"
      ∧ ∀ a : F, a ≠ 0 → ∃ w, FieldElement.inverse a = .ok w ∧ a * w = 1 := by
  refine ⟨FieldElement.inverse_zero, ?_⟩
  intro a ha
  exact ⟨a⁻¹, FieldElement.inverse_ok a ha, mul_inv_cancel₀ ha⟩

theorem field_inverse_spec_witness :
    (5 : F) ≠ 0 ∧ ∃ w, FieldElement.inverse (5 : F) = .ok w ∧ (5 : F) * w = 1 :=
  ⟨by decide, field_inverse_spec.2 5 (by decide)⟩

theorem getD_set_self {α : Type} (l : List α) (i : Nat) (x d : α) (h : i < l.length) :
    (l.set i x).getD i d = x := by
  rw [List.getD_eq_getElem?_getD, List.getElem?_set_self (by simpa using h)]
  rfl

theorem getD_set_ne {α : Type} (l : List α) (i j : Nat) (x d : α) (h : j ≠ i) :
    (l.set i x).getD j d = l.getD j d := by
  rw [List.getD_eq_getElem?_getD, List.getElem?_set_ne (Ne.symm h), ← List.getD_eq_getElem?_getD]

/-- C9: `setConstraint(index, a, b, c)` fails with the range error exactly
when `index ≥ num_constraints`; in range, it stores the three rows at
`index` and leaves every other row (and the dimensions) unchanged. -/
theorem setConstraint_spec (r : R1CS) (idx : Nat) (a b c : List F)
    (hA : r.A.length = r.num_constraints)
    (hB : r.B.length = r.num_constraints)
    (hC : r.C.length = r.num_constraints) :
    (r.num_constraints ≤ idx →
        r.setConstraint idx a b c = .error "Constraint index out of bounds")
      ∧ (idx < r.num_constraints →
          ∃ r2, r.setConstraint idx a b c = .ok r2 ∧
            r2.num_variables = r.num_variables ∧
            r2.num_constraints = r.num_constraints ∧
            r2.A.getD idx [] = a ∧ r2.B.getD idx [] = b ∧ r2.C.getD idx [] = c ∧
            ∀ j, j ≠ idx →
              r2.A.getD j [] = r.A.getD j [] ∧
              r2.B.getD j [] = r.B.getD j [] ∧
              r2.C.getD j [] = r.C.getD j []) := by
  constructor
  · intro hge
    rw [R1CS.setConstraint, if_pos hge]
  · intro hlt
    refine ⟨{ r with A := r.A.set idx a, B := r.B.set idx b, C := r.C.set idx c },
      by rw [R1CS.setConstraint, if_neg (by omega)], rfl, rfl, ?_, ?_, ?_, ?_⟩
    · exact getD_set_self r.A idx a [] (by omega)
    · exact getD_set_self r.B idx b [] (by omega)
    · exact getD_set_self r.C idx c [] (by omega)
    · intro j hj
      exact ⟨getD_set_ne r.A idx j a [] hj, getD_set_ne r.B idx j b [] hj,
        getD_set_ne r.C idx j c [] hj⟩

theorem setConstraint_spec_witness :
    ((R1CS.new 3 2).num_constraints ≤ 2 →
        (R1CS.new 3 2).setConstraint 2 [0, 1, 0] [0, 1, 0] [0, 0, 1]
          = .error "Constraint index out of bounds")
      ∧ ((1 : Nat) < (R1CS.new 3 2).num_constraints ∧
          ∃ r2, (R1CS.new 3 2).setConstraint 1 [0, 1, 0] [0, 1, 0] [0, 0, 1] = .ok r2 ∧
            r2.A.getD 1 [] = [0, 1, 0] ∧ r2.A.getD 0 [] = (R1CS.new 3 2).A.getD 0 []) := by
  constructor
  · intro h2
    exact ((setConstraint_spec (R1CS.new 3 2) 2 [0, 1, 0] [0, 1, 0] [0, 0, 1]
      (by decide) (by decide) (by decide)).1 h2)
  · refine ⟨by decide, ?_⟩
    obtain ⟨r2, hok, _, _, hset, _, _, hother⟩ :=
      (setConstraint_spec (R1CS.new 3 2) 1 [0, 1, 0] [0, 1, 0] [0, 0, 1]
        (by decide) (by decide) (by decide)).2 (by decide)
    exact ⟨r2, hok, hset, (hother 0 (by decide)).1⟩

/-! ## No point with y = 0 lies on the configured curve -/

theorem pow_step_sq (t c d : F) (m k : Nat) (hk : k = 2 * m)
    (h : t ^ m = c) (hd : c * c = d) : t ^ k = d := by
  subst hk
  rw [two_mul, pow_add, h, hd]

theorem pow_step_sq_mul (t c d : F) (m k : Nat) (hk : k = 2 * m + 1)
    (h : t ^ m = c) (hd : c * c * t = d) : t ^ k = d := by
  subst hk
  rw [pow_succ, two_mul, pow_add, h, hd]

/-- Square-and-multiply certificate for `(-7) ^ ((P - 1) / 3)` in `F`:
the result is not 1, so `-7` is not a cube modulo `P`. -/
theorem neg_seven_pow_third : ((2147483640 : F)) ^ 715827882 = 1513477735 := by
  have h1 : ((2147483640 : F)) ^ 1 = 2147483640 := pow_one _
  have h2 : ((2147483640 : F)) ^ 2 = 49 :=
    pow_step_sq _ _ _ 1 2 (by norm_num) h1 (by decide)
  have h3 : ((2147483640 : F)) ^ 5 = 2147466840 :=
    pow_step_sq_mul _ _ _ 2 5 (by norm_num) h2 (by decide)
  have h4 : ((2147483640 : F)) ^ 10 = 282475249 :=
    pow_step_sq _ _ _ 5 10 (by norm_num) h3 (by decide)
  have h5 : ((2147483640 : F)) ^ 21 = 1695328982 :=
    pow_step_sq_mul _ _ _ 10 21 (by norm_num) h4 (by decide)
  have h6 : ((2147483640 : F)) ^ 42 = 567732671 :=
    pow_step_sq _ _ _ 21 42 (by norm_num) h5 (by decide)
  have h7 : ((2147483640 : F)) ^ 85 = 706201320 :=
    pow_step_sq_mul _ _ _ 42 85 (by norm_num) h6 (by decide)
  have h8 : ((2147483640 : F)) ^ 170 = 101929267 :=
    pow_step_sq _ _ _ 85 170 (by norm_num) h7 (by decide)
  have h9 : ((2147483640 : F)) ^ 341 = 783551791 :=
    pow_step_sq_mul _ _ _ 170 341 (by norm_num) h8 (by decide)
  have h10 : ((2147483640 : F)) ^ 682 = 2144351583 :=
    pow_step_sq _ _ _ 341 682 (by norm_num) h9 (by decide)
  have h11 : ((2147483640 : F)) ^ 1365 = 1310279447 :=
    pow_step_sq_mul _ _ _ 682 1365 (by norm_num) h10 (by decide)
  have h12 : ((2147483640 : F)) ^ 2730 = 702715827 :=
    pow_step_sq _ _ _ 1365 2730 (by norm_num) h11 (by decide)
  have h13 : ((2147483640 : F)) ^ 5461 = 1752847798 :=
    pow_step_sq_mul _ _ _ 2730 5461 (by norm_num) h12 (by decide)
  have h14 : ((2147483640 : F)) ^ 10922 = 57777560 :=
    pow_step_sq _ _ _ 5461 10922 (by norm_num) h13 (by decide)
  have h15 : ((2147483640 : F)) ^ 21845 = 116354715 :=
    pow_step_sq_mul _ _ _ 10922 21845 (by norm_num) h14 (by decide)
  have h16 : ((2147483640 : F)) ^ 43690 = 2039727126 :=
    pow_step_sq _ _ _ 21845 43690 (by norm_num) h15 (by decide)
  have h17 : ((2147483640 : F)) ^ 87381 = 1332863379 :=
    pow_step_sq_mul _ _ _ 43690 87381 (by norm_num) h16 (by decide)
  have h18 : ((2147483640 : F)) ^ 174762 = 1440264748 :=
    pow_step_sq _ _ _ 87381 174762 (by norm_num) h17 (by decide)
  have h19 : ((2147483640 : F)) ^ 349525 = 1496373923 :=
    pow_step_sq_mul _ _ _ 174762 349525 (by norm_num) h18 (by decide)
  have h20 : ((2147483640 : F)) ^ 699050 = 1275070073 :=
    pow_step_sq _ _ _ 349525 699050 (by norm_num) h19 (by decide)
  have h21 : ((2147483640 : F)) ^ 1398101 = 1526367704 :=
    pow_step_sq_mul _ _ _ 699050 1398101 (by norm_num) h20 (by decide)
  have h22 : ((2147483640 : F)) ^ 2796202 = 1350851787 :=
    pow_step_sq _ _ _ 1398101 2796202 (by norm_num) h21 (by decide)
  have h23 : ((2147483640 : F)) ^ 5592405 = 949770016 :=
    pow_step_sq_mul _ _ _ 2796202 5592405 (by norm_num) h22 (by decide)
  have h24 : ((2147483640 : F)) ^ 11184810 = 1706053424 :=
    pow_step_sq _ _ _ 5592405 11184810 (by norm_num) h23 (by decide)
  have h25 : ((2147483640 : F)) ^ 22369621 = 1359548991 :=
    pow_step_sq_mul _ _ _ 11184810 22369621 (by norm_num) h24 (by decide)
  have h26 : ((2147483640 : F)) ^ 44739242 = 1527277373 :=
    pow_step_sq _ _ _ 22369621 44739242 (by norm_num) h25 (by decide)
  have h27 : ((2147483640 : F)) ^ 89478485 = 1521440981 :=
    pow_step_sq_mul _ _ _ 44739242 89478485 (by norm_num) h26 (by decide)
  have h28 : ((2147483640 : F)) ^ 178956970 = 373859930 :=
    pow_step_sq _ _ _ 89478485 178956970 (by norm_num) h27 (by decide)
  have h29 : ((2147483640 : F)) ^ 357913941 = 634005911 :=
    pow_step_sq_mul _ _ _ 178956970 357913941 (by norm_num) h28 (by decide)
  have h30 : ((2147483640 : F)) ^ 715827882 = 1513477735 :=
    pow_step_sq _ _ _ 357913941 715827882 (by norm_num) h29 (by decide)
  exact h30

/-- `-7` has no cube root in `F`: otherwise `(-7) ^ ((P-1)/3)` would be 1. -/
theorem no_cube_root_neg_seven (x : F) : x * x * x ≠ 2147483640 := by
  intro hx
  have hx3 : x ^ 3 = 2147483640 := by
    rw [pow_succ, pow_succ, pow_one]
    exact hx
  have hxne : x ≠ 0 := by
    intro h0
    rw [h0] at hx3
    simp at hx3
    exact absurd hx3 (by decide)
  have hfl : x ^ (P - 1) = 1 := ZMod.pow_card_sub_one_eq_one hxne
  have hcube : (x ^ 3) ^ 715827882 = x ^ (P - 1) := by
    rw [← pow_mul]
    norm_num
  rw [hx3, neg_seven_pow_third, hfl] at hcube
  exact absurd hcube (by decide)

/-- No non-infinity point of the curve `y^2 = x^3 + 0*x + 7` has `y = 0`. -/
theorem onCurve_y_ne_zero (p : ECPoint) (hc : p.onCurve) : p.y ≠ 0 := by
  intro h0
  rw [ECPoint.onCurve, h0] at hc
  have : p.x * p.x * p.x = 2147483640 := by
    rw [curveA, curveB] at hc
    have h7 : (2147483640 : F) = -7 := by decide
    rw [h7]
    linear_combination -hc
  exact no_cube_root_neg_seven p.x this


/-! ## Claim theorems: C5 and the protocol claims C2, C3, C4, C10 -/

/-- C5: for any two non-infinity points on the configured curve
`y^2 = x^3 + 0*x + 7`, `ECPoint::operator+` never divides by the additive
identity: the vertical-pair case is guarded, chords have nonzero
denominators, and the tangent denominator `2y` is nonzero because no point
of this curve has `y = 0` (`-7` is not a cube mod `P`).  In particular
`p + p` never raises a division error for an on-curve `p`. -/
theorem ec_add_no_division_error (p q : ECPoint)
    (hp : p.isInfinity = false) (hq : q.isInfinity = false)
    (hpc : p.onCurve) (_hqc : q.onCurve) :
    ∃ res, ECPoint.add p q = .ok res := by
  by_cases hvert : p.x = q.x ∧ p.y ≠ q.y
  · exact ⟨ECPoint.infty, by simp [ECPoint.add, hp, hq, hvert]⟩
  · by_cases heq : p.x = q.x ∧ p.y = q.y
    · have hy : p.y ≠ 0 := onCurve_y_ne_zero p hpc
      have h2 : (2 : F) ≠ 0 := by decide
      have hden : p.y * 2 ≠ 0 := mul_ne_zero hy h2
      simp only [ECPoint.add, hp, hq, Bool.false_eq_true, if_false, if_neg hvert, if_pos heq]
      rw [FieldElement.div_ok _ _ hden]
      exact ⟨_, rfl⟩
    · have hxne : p.x ≠ q.x := by
        by_contra hxx
        rcases eq_or_ne p.y q.y with hyy | hyy
        · exact heq ⟨hxx, hyy⟩
        · exact hvert ⟨hxx, hyy⟩
      have hden : q.x - p.x ≠ 0 := sub_ne_zero_of_ne (Ne.symm hxne)
      simp only [ECPoint.add, hp, hq, Bool.false_eq_true, if_false, if_neg hvert, if_neg heq]
      rw [FieldElement.div_ok _ _ hden]
      exact ⟨_, rfl⟩

theorem ec_add_no_division_error_witness :
    (ECPoint.mkPoint 1 131072).isInfinity = false ∧
    (ECPoint.mkPoint 1 131072).onCurve ∧
    ∃ res, ECPoint.add (ECPoint.mkPoint 1 131072) (ECPoint.mkPoint 1 131072) = .ok res :=
  ⟨rfl, by decide,
    ec_add_no_division_error (ECPoint.mkPoint 1 131072) (ECPoint.mkPoint 1 131072)
      rfl rfl (by decide) (by decide)⟩

/-- Whenever `zkSNARK::verify` returns a boolean, that boolean is exactly
the three-way not-at-infinity check on the proof. -/
theorem verify_ok_val (vk : VerificationKey) (pr : Proof) (pub : List F) (b : Bool)
    (h : zkSNARK.verify vk pr pub = .ok b) :
    b = (!pr.A.isInfinity && !pr.B.isInfinity && !pr.C.isInfinity) := by
  simp only [zkSNARK.verify] at h
  obtain ⟨vkx, _, h⟩ := bind_ok h
  exact (pure_ok h).symm

/-- C3 (amended): on every run of `verify` that returns a boolean (the
input-consistency fold did not throw), the result is true iff none of
`proof.A`, `proof.B`, `proof.C` is the point at infinity.  The unamended
claim fails because the fold can throw while all components are
non-infinity. -/
theorem verify_iff_no_infinity (vk : VerificationKey) (pr : Proof) (pub : List F) (b : Bool)
    (h : zkSNARK.verify vk pr pub = .ok b) :
    (b = true ↔ pr.A.isInfinity = false ∧ pr.B.isInfinity = false ∧ pr.C.isInfinity = false) := by
  rw [verify_ok_val vk pr pub b h]
  simp [and_assoc]

/-- C3 counterexample: a verification key with the point `(1, 0)` in `IC`
and public input `2` make `verify` throw (doubling divides by `2 * 0`),
so it does not return true although no proof component is the identity. -/
theorem verify_not_iff_counterexample :
    proofNonInf.A.isInfinity = false ∧ proofNonInf.B.isInfinity = false ∧
    proofNonInf.C.isInfinity = false ∧
    zkSNARK.verify vkBad proofNonInf [2] = .error "Cannot invert zero" ∧
    zkSNARK.verify vkBad proofNonInf [2] ≠ .ok true := by decide

theorem verify_iff_no_infinity_witness :
    zkSNARK.verify vkSquare proofSquare [] = .ok true ∧
    (true = true ↔ proofSquare.A.isInfinity = false ∧ proofSquare.B.isInfinity = false ∧
      proofSquare.C.isInfinity = false) :=
  ⟨by decide, verify_iff_no_infinity vkSquare proofSquare [] true (by decide)⟩

/-- C4 (amended): whenever `verify` returns booleans on two public-input
vectors (same key and proof), the booleans agree: the input-consistency
accumulator is computed but never used in the decision.  The unamended
claim fails because one run can throw while the other returns. -/
theorem verify_independent_of_public_inputs (vk : VerificationKey) (pr : Proof)
    (p1 p2 : List F) (b1 b2 : Bool)
    (h1 : zkSNARK.verify vk pr p1 = .ok b1) (h2 : zkSNARK.verify vk pr p2 = .ok b2) :
    b1 = b2 := by
  rw [verify_ok_val vk pr p1 b1 h1, verify_ok_val vk pr p2 b2 h2]

/-- C4 counterexample: with the adversarial key, `verify` returns a
boolean on the empty input vector but throws on `[2]`, so the two results
differ. -/
theorem verify_depends_on_public_inputs_counterexample :
    zkSNARK.verify vkBad proofNonInf [] = .ok true ∧
    zkSNARK.verify vkBad proofNonInf [2] = .error "Cannot invert zero" ∧
    zkSNARK.verify vkBad proofNonInf [] ≠ zkSNARK.verify vkBad proofNonInf [2] := by decide

theorem verify_independent_witness :
    zkSNARK.verify vkSquare proofSquare [] = .ok true ∧
    zkSNARK.verify vkSquare proofSquare [5] = .ok true ∧
    (true : Bool) = true :=
  ⟨by decide, by decide,
    verify_independent_of_public_inputs vkSquare proofSquare [] [5] true true
      (by decide) (by decide)⟩

/-- C2 (amended): on every completed run of the pipeline — keys from
`setup` on the QAP of a constraint system, any satisfying witness, any
public inputs, any random scalars, with `prove` and `verify` both
returning — `verify` accepts exactly when none of the three computed proof
components is the point at infinity.  The unamended claim (always true)
fails for scalar choices that make a component encode a multiple of the
generator order. -/
theorem prove_verify_accepts_iff (qap : QAP) (r1cs : R1CS)
    (tau al be ga de npub : Nat) (pk : ProvingKey) (vk : VerificationKey)
    (witness pub : List F) (r s : Nat) (pr : Proof) (b : Bool)
    (_hq : QAP.fromR1CS r1cs = .ok qap)
    (_hsetup : zkSNARK.setup qap r1cs tau al be ga de npub = .ok (pk, vk))
    (_hsat : r1cs.verify witness = true)
    (_hprove : zkSNARK.prove qap pk witness pub r s = .ok pr)
    (hverify : zkSNARK.verify vk pr pub = .ok b) :
    (b = true ↔ pr.A.isInfinity = false ∧ pr.B.isInfinity = false ∧
      pr.C.isInfinity = false) := by
  rw [verify_ok_val vk pr pub b hverify]
  simp [and_assoc]

/-- C2 counterexample: with the always-satisfied system `sysSquare`, toxic
waste and blinding scalars all equal to 1 (legal draws from `[1, P-1]`) and
the satisfying witness `[27888706]` (one less than the order of the
generator under the code group law), the computed proof component `A` is
the point at infinity and the full pipeline returns false, not true. -/
theorem prove_verify_counterexample :
    sysSquare.verify [(27888706 : F)] = true ∧
    (1 ≤ (1 : Nat) ∧ (1 : Nat) ≤ P - 1) ∧
    (do
      let qap ← QAP.fromR1CS sysSquare
      let kp ← zkSNARK.setup qap sysSquare 1 1 1 1 1 0
      let pr ← zkSNARK.prove qap kp.1 [(27888706 : F)] [] 1 1
      zkSNARK.verify kp.2 pr []) = .ok false := by decide

theorem prove_verify_accepts_iff_witness :
    QAP.fromR1CS sysSquare = .ok qapSquare ∧
    zkSNARK.setup qapSquare sysSquare 1 1 1 1 1 0 = .ok (pkSquare, vkSquare) ∧
    sysSquare.verify [(1 : F)] = true ∧
    zkSNARK.prove qapSquare pkSquare [(1 : F)] [] 1 1 = .ok proofSquare ∧
    zkSNARK.verify vkSquare proofSquare [] = .ok true ∧
    (true = true ↔ proofSquare.A.isInfinity = false ∧ proofSquare.B.isInfinity = false ∧
      proofSquare.C.isInfinity = false) :=
  ⟨by decide, by decide, by decide, by decide, by decide,
    prove_verify_accepts_iff qapSquare sysSquare 1 1 1 1 1 0 pkSquare vkSquare
      [(1 : F)] [] 1 1 proofSquare true (by decide) (by decide) (by decide)
      (by decide) (by decide)⟩

/-- C10: whenever `setup` returns, the verification key's `IC` list is
exactly the `numPublicInputs + 1` points `G * (i + 1)`, `i = 0..n` — an
expression depending only on `numPublicInputs`, not on the QAP, the R1CS,
or the five random scalars. -/
theorem setup_ic_spec (qap : QAP) (r1cs : R1CS)
    (tau al be ga de npub : Nat) (pk : ProvingKey) (vk : VerificationKey)
    (h : zkSNARK.setup qap r1cs tau al be ga de npub = .ok (pk, vk)) :
    vk.IC.length = npub + 1 ∧
    (List.range (npub + 1)).mapM (fun i => ECPoint.mulNat generatorG (i + 1))
      = .ok vk.IC := by
  simp only [zkSNARK.setup] at h
  obtain ⟨queries, _, h⟩ := bind_ok h
  obtain ⟨pkAlpha, _, h⟩ := bind_ok h
  obtain ⟨pkBeta, _, h⟩ := bind_ok h
  obtain ⟨pkDelta, _, h⟩ := bind_ok h
  obtain ⟨vkAlpha, _, h⟩ := bind_ok h
  obtain ⟨vkBeta, _, h⟩ := bind_ok h
  obtain ⟨vkGamma, _, h⟩ := bind_ok h
  obtain ⟨vkDelta, _, h⟩ := bind_ok h
  obtain ⟨ic, hic, h⟩ := bind_ok h
  have hpair := pure_ok h
  have hvk : vk.IC = ic := by
    have := congrArg Prod.snd hpair
    simp at this
    rw [← this]
  rw [hvk]
  refine ⟨?_, hic⟩
  rw [mapM_ok_length _ _ _ hic, List.length_range]

theorem setup_ic_spec_witness :
    zkSNARK.setup qapSquare sysSquare 1 1 1 1 1 0 = .ok (pkSquare, vkSquare) ∧
    vkSquare.IC.length = 0 + 1 ∧
    (List.range (0 + 1)).mapM (fun i => ECPoint.mulNat generatorG (i + 1))
      = .ok vkSquare.IC :=
  ⟨by decide,
    setup_ic_spec qapSquare sysSquare 1 1 1 1 1 0 pkSquare vkSquare (by decide)⟩
